import Mathlib

/-!
# Verification of the fget parallel range downloader

Shallow embedding of the core of the `fget` program:

* the download planner and the per-part streaming loop (`src/downloader.rs`),
* the controller event loop and merge gate (`src/downloader.rs`),
* the minimal HTTP client's redirect handling, header parsing and
  address selection (`src/httpx.rs`),
* the URL parser (`src/urlinfo.rs`).

Machine integers (`u64`) are modelled as `Nat` with explicit wrap-around
`% 2 ^ 64` at the operations where the Rust code can overflow.  Strings are
modelled at character granularity (`List Char`); the Rust code indexes by
bytes, which agrees with the character model on ASCII input.
-/

namespace Fget

/-- The constant `2 ^ 64`, the modulus of Rust's `u64` arithmetic (wrap-around on overflow
in release builds). -/
def U64 : Nat := 2 ^ 64

/-- Wrapping `u64` addition. -/
def u64add (a b : Nat) : Nat := (a + b) % U64

/-- Wrapping `u64` subtraction (for operands already reduced mod `2 ^ 64`). -/
def u64sub (a b : Nat) : Nat := (a % U64 + (U64 - b % U64)) % U64

/-- Wrapping `u64` multiplication. -/
def u64mul (a b : Nat) : Nat := (a * b) % U64

/-! ## The download planner

`src/downloader.rs`, `download` (lines 174-189):

```rust
let num_threads = if dlinfo.range_supported { cfg.num_threads as u64 } else { 1 };
let chunk_size = (dlinfo.len + num_threads - 1) / num_threads;
for i in 0..num_threads {
    let start = i * chunk_size;
    let end = cmp::min((i + 1) * chunk_size - 1, dlinfo.len - 1);
    ...
}
```

All quantities are `u64`, so each `+`, `-`, `*` wraps at `2 ^ 64`. -/

/-- The `chunk_size` as computed by `download`: `(len + num_threads - 1) / num_threads`
in `u64` arithmetic. -/
def chunk_size (len n : Nat) : Nat := u64sub (u64add len n) 1 / n

/-- The `start` of part `i`: `i * chunk_size` in `u64` arithmetic. -/
def part_start (len n i : Nat) : Nat := u64mul i (chunk_size len n)

/-- Inclusive `end` of part `i`: `min((i + 1) * chunk_size - 1, len - 1)` in
`u64` arithmetic (`len` is a `u64`, hence already `< 2 ^ 64`). -/
def part_end (len n i : Nat) : Nat :=
  min (u64sub (u64mul (i + 1) (chunk_size len n)) 1) (len - 1)

/-- Offset `j` of the resource falls into part `i` of the plan (the ranges are
inclusive on both ends). -/
def inPart (len n i j : Nat) : Prop :=
  part_start len n i ≤ j ∧ j ≤ part_end len n i

instance (len n i j : Nat) : Decidable (inPart len n i j) := by
  unfold inPart; infer_instance

theorem u64add_eq (a b : Nat) (h : a + b < U64) : u64add a b = a + b :=
  Nat.mod_eq_of_lt h

theorem u64mul_eq (a b : Nat) (h : a * b < U64) : u64mul a b = a * b :=
  Nat.mod_eq_of_lt h

theorem u64sub_one_eq (a : Nat) (h1 : 1 ≤ a) (h2 : a < U64) : u64sub a 1 = a - 1 := by
  unfold u64sub
  have hU : 1 < U64 := by unfold U64; norm_num
  rw [Nat.mod_eq_of_lt h2, Nat.mod_eq_of_lt hU]
  have h : a + (U64 - 1) = (a - 1) + U64 := by omega
  rw [h, Nat.add_mod_right, Nat.mod_eq_of_lt (by omega)]

/-- Without `u64` overflow (`len + n ≤ 2 ^ 64`) the computed chunk size is the
ceiling `⌈len / n⌉ = (len + n - 1) / n`. -/
theorem chunk_size_eq (len n : Nat) (h1 : 1 ≤ len) (hov : len + n ≤ U64) :
    chunk_size len n = (len + n - 1) / n := by
  unfold chunk_size
  rcases Nat.lt_or_ge (len + n) U64 with h | h
  · rw [u64add_eq len n h, u64sub_one_eq (len + n) (by omega) h]
  · have hn : len + n = U64 := le_antisymm hov h
    have hU : 1 < U64 := by unfold U64; norm_num
    have e1 : u64add len n = 0 := by unfold u64add; rw [hn]; exact Nat.mod_self _
    rw [e1]
    have e2 : u64sub 0 1 = U64 - 1 := by
      unfold u64sub
      rw [Nat.zero_mod, Nat.mod_eq_of_lt hU, Nat.zero_add, Nat.mod_eq_of_lt (by omega)]
    rw [e2, show len + n - 1 = U64 - 1 by omega]

/-- Key facts about the chunk size when `len + n` does not overflow:
it is positive, and `n` chunks cover `len` without exceeding `len + n - 1`. -/
theorem chunk_mul_bounds (len n : Nat) (h1 : 1 ≤ len) (hn : 1 ≤ n) (hov : len + n ≤ U64) :
    0 < chunk_size len n ∧ len ≤ n * chunk_size len n ∧
    n * chunk_size len n ≤ len + n - 1 := by
  rw [chunk_size_eq len n h1 hov]
  have hd := Nat.div_add_mod (len + n - 1) n
  have hm := Nat.mod_lt (len + n - 1) (show 0 < n by omega)
  have hq : 1 ≤ (len + n - 1) / n := (Nat.one_le_div_iff (by omega)).2 (by omega)
  exact ⟨by omega, by omega, by omega⟩

/-- Without overflow, the part bounds are exactly the formulas
`start = i * chunk`, `end = min ((i+1) * chunk - 1) (len - 1)` over `Nat`. -/
theorem part_bounds_eq (len n i : Nat) (h1 : 1 ≤ len) (hn : 1 ≤ n) (hov : len + n ≤ U64)
    (hi : i < n) :
    part_start len n i = i * chunk_size len n ∧
    part_end len n i = min ((i + 1) * chunk_size len n - 1) (len - 1) := by
  obtain ⟨hc0, hlc, hcl⟩ := chunk_mul_bounds len n h1 hn hov
  have hi1 : (i + 1) * chunk_size len n ≤ n * chunk_size len n :=
    Nat.mul_le_mul_right _ (by omega)
  have hmul : (i + 1) * chunk_size len n < U64 := by omega
  have hi0 : i * chunk_size len n ≤ (i + 1) * chunk_size len n :=
    Nat.mul_le_mul_right _ (by omega)
  constructor
  · exact u64mul_eq i _ (by omega)
  · unfold part_end
    rw [u64mul_eq (i + 1) _ hmul,
      u64sub_one_eq _ (Nat.mul_pos (by omega) hc0) hmul]

/-- Claim C1 (amended). For every `len > 0` and thread count `N ∈ [1, 32]` such
that `len + N - 1` does not overflow `u64`, the plan computed by `download`
(`src/downloader.rs` lines 174-189) partitions `[0, len)` exactly: part `0`
starts at `0`, part `N-1` ends at `len - 1`, and every offset `j < len` lies in
exactly one part's inclusive range.  (At `len = 2^64 - 1`, `N = 2` the `u64`
addition `len + N` wraps and the property fails; see
`download_plan_partition_cex`.) -/
theorem download_plan_partition (len n : Nat) (hlen : 0 < len) (hn1 : 1 ≤ n) (hn2 : n ≤ 32)
    (hov : len + n - 1 < U64) :
    part_start len n 0 = 0 ∧
    part_end len n (n - 1) = len - 1 ∧
    ∀ j, j < len → ∃! i, i < n ∧ inPart len n i j := by
  have hov' : len + n ≤ U64 := by omega
  obtain ⟨hc0, hlc, hcl⟩ := chunk_mul_bounds len n hlen hn1 hov'
  refine ⟨?_, ?_, ?_⟩
  · have h := (part_bounds_eq len n 0 hlen hn1 hov' (by omega)).1
    simpa using h
  · rw [(part_bounds_eq len n (n - 1) hlen hn1 hov' (by omega)).2,
      show n - 1 + 1 = n by omega]
    exact min_eq_right (by omega)
  · intro j hj
    have hjc : j / chunk_size len n < n :=
      (Nat.div_lt_iff_lt_mul hc0).2 (by omega)
    obtain ⟨hs, he⟩ := part_bounds_eq len n (j / chunk_size len n) hlen hn1 hov' hjc
    refine ⟨j / chunk_size len n, ⟨hjc, ?_, ?_⟩, ?_⟩
    · rw [hs]
      exact Nat.div_mul_le_self j _
    · rw [he]
      have hd := Nat.div_add_mod j (chunk_size len n)
      have hm := Nat.mod_lt j hc0
      have hr : (j / chunk_size len n + 1) * chunk_size len n =
          chunk_size len n * (j / chunk_size len n) + chunk_size len n := by ring
      refine le_min (by omega) (by omega)
    · rintro i ⟨hi, his, hie⟩
      obtain ⟨hs2, he2⟩ := part_bounds_eq len n i hlen hn1 hov' hi
      rw [hs2] at his
      rw [he2] at hie
      have hie2 : j ≤ (i + 1) * chunk_size len n - 1 :=
        le_trans hie (min_le_left _ _)
      have hpos : 0 < (i + 1) * chunk_size len n := Nat.mul_pos (by omega) hc0
      have h4 : j < (i + 1) * chunk_size len n := by omega
      exact (Nat.div_eq_of_lt_le his h4).symm

/-- Claim C1 counterexample. At `len = 2^64 - 1` (a valid `u64` content length)
and `N = 2`, `len + N - 1` wraps to `0` in `u64`, the chunk size collapses to
`0`, and both parts become `[0, len - 1]`: offset `0` lies in two distinct
parts, so the claimed partition property (every offset in exactly one part)
fails as stated for arbitrary `u64` content lengths. -/
theorem download_plan_partition_cex :
    ¬ (∀ j, j < 2 ^ 64 - 1 →
        ∃! i, i < 2 ∧ inPart (2 ^ 64 - 1) 2 i j) := by
  intro h
  obtain ⟨i, hPi, huniq⟩ := h 0 (by norm_num)
  have e0 : chunk_size (2 ^ 64 - 1) 2 = 0 := by
    unfold chunk_size u64add u64sub U64
    norm_num
  have hp : ∀ k, k < 2 → (k < 2 ∧ inPart (2 ^ 64 - 1) 2 k 0) := by
    intro k hk
    have hps : part_start (2 ^ 64 - 1) 2 k = 0 := by
      unfold part_start u64mul
      rw [e0, Nat.mul_zero, Nat.zero_mod]
    exact ⟨hk, le_of_eq hps, Nat.zero_le _⟩
  have h0 := huniq 0 (hp 0 (by norm_num))
  have h1 := huniq 1 (hp 1 (by norm_num))
  omega

/-- Witness for `download_plan_partition` at `len = 10`, `N = 3`. -/
theorem download_plan_partition_witness :
    part_start 10 3 0 = 0 ∧
    part_end 10 3 2 = 9 ∧
    ∀ j, j < 10 → ∃! i, i < 3 ∧ inPart 10 3 i j := by
  have h := download_plan_partition 10 3 (by norm_num) (by norm_num) (by norm_num)
    (by unfold U64; norm_num)
  simpa using h

/-- General no-wrap evaluation of `u64` subtraction. -/
theorem u64sub_eq (a b : Nat) (hb : b ≤ a) (ha : a < U64) : u64sub a b = a - b := by
  unfold u64sub
  rw [Nat.mod_eq_of_lt ha, Nat.mod_eq_of_lt (show b < U64 by omega)]
  have h : a + (U64 - b) = (a - b) + U64 := by omega
  rw [h, Nat.add_mod_right, Nat.mod_eq_of_lt (by omega)]

/-! ## The per-part streaming loop

`src/downloader.rs`, `download_part` (lines 104-134):

```rust
let mut r = resp.into_body();
let mut buf = [0u8; 8192];
let mut pos = start;
...
sender.send(DownloadStatus::Started(idx, end - start))?;
while pos < end {
    let n = r.read(&mut buf)?;
    if n == 0 { break; }
    file.write_all(&buf[..n])?;
    pos += n as u64;
    sender.send(DownloadStatus::Progress(idx, pos - start))?;
}
sender.send(DownloadStatus::Done(idx, fpath))?;
```

The body stream is abstracted as the list `ns` of sizes returned by the
successive successful `read` calls (each `≤ 8192`, the buffer size); the list
ending corresponds to `read` returning `0` (EOF).  `partRun endp pos ns`
returns the final value of `pos` together with the list of `pos` values after
each executed write (the `Progress` payloads are these minus `start`).
`Done` is sent unconditionally after the loop, whether the range was
completed or not. -/
def partRun (endp : Nat) : Nat → List Nat → Nat × List Nat
  | pos, [] => (pos, [])
  | pos, n :: ns =>
    if pos < endp then
      if n = 0 then (pos, [])
      else
        let r := partRun endp (pos + n) ns
        (r.1, (pos + n) :: r.2)
    else (pos, [])

/-- The successive `Progress(idx, pos - start)` payloads sent by a worker with
inclusive range `[start, endp]` whose body reads return sizes `ns`. -/
def progress_events (start endp : Nat) (ns : List Nat) : List Nat :=
  ((partRun endp start ns).2).map (fun p => p - start)

/-- The final `pos - start` after the loop: the total number of bytes the
worker wrote (and the value of its last `Progress` event, if any). -/
def bytes_done (start endp : Nat) (ns : List Nat) : Nat :=
  (partRun endp start ns).1 - start

/-- The length payload of the `Started(idx, end - start)` event
(`u64` subtraction, `src/downloader.rs` line 118). -/
def started_len (start endp : Nat) : Nat := u64sub endp start

theorem partRun_final_lower (endp : Nat) (ns : List Nat) : ∀ pos,
    (∀ n ∈ ns, 0 < n) → endp ≤ pos + ns.sum → endp ≤ (partRun endp pos ns).1 := by
  induction ns with
  | nil =>
    intro pos _ h
    unfold partRun
    simp only [List.sum_nil, Nat.add_zero] at h
    exact h
  | cons n ns ih =>
    intro pos hpos h
    unfold partRun
    by_cases hlt : pos < endp
    · rw [if_pos hlt]
      have hn : 0 < n := hpos n (List.mem_cons_self n ns)
      rw [if_neg (by omega)]
      refine ih (pos + n) (fun m hm => hpos m (List.mem_cons_of_mem n hm)) ?_
      simp only [List.sum_cons] at h
      omega
    · rw [if_neg hlt]; omega

theorem partRun_final_upper (endp : Nat) (ns : List Nat) : ∀ pos,
    (∀ n ∈ ns, n ≤ 8192) → (partRun endp pos ns).1 ≤ max pos (endp + 8191) := by
  induction ns with
  | nil => intro pos _; simp [partRun]
  | cons n ns ih =>
    intro pos hsz
    unfold partRun
    by_cases hlt : pos < endp
    · rw [if_pos hlt]
      by_cases hn : n = 0
      · rw [if_pos hn]; simp
      · rw [if_neg hn]
        have h1 := ih (pos + n) (fun m hm => hsz m (List.mem_cons_of_mem n hm))
        have h2 : n ≤ 8192 := hsz n (List.mem_cons_self n ns)
        simp only [max_le_iff, le_max_iff] at h1 ⊢
        omega
    · rw [if_neg hlt]; simp

theorem partRun_mem_ub (endp : Nat) (ns : List Nat) : ∀ pos,
    (∀ n ∈ ns, n ≤ 8192) → ∀ x ∈ (partRun endp pos ns).2, x ≤ endp + 8191 := by
  induction ns with
  | nil => intro pos _ x hx; simp [partRun] at hx
  | cons n ns ih =>
    intro pos hsz x hx
    unfold partRun at hx
    by_cases hlt : pos < endp
    · rw [if_pos hlt] at hx
      by_cases hn : n = 0
      · rw [if_pos hn] at hx; simp at hx
      · rw [if_neg hn] at hx
        simp only [List.mem_cons] at hx
        rcases hx with h | h
        · have := hsz n (List.mem_cons_self n ns); omega
        · exact ih (pos + n) (fun m hm => hsz m (List.mem_cons_of_mem n hm)) x h
    · rw [if_neg hlt] at hx; simp at hx

theorem partRun_mem_lb (endp : Nat) (ns : List Nat) : ∀ pos,
    ∀ x ∈ (partRun endp pos ns).2, pos ≤ x := by
  induction ns with
  | nil => intro pos x hx; simp [partRun] at hx
  | cons n ns ih =>
    intro pos x hx
    unfold partRun at hx
    by_cases hlt : pos < endp
    · rw [if_pos hlt] at hx
      by_cases hn : n = 0
      · rw [if_pos hn] at hx; simp at hx
      · rw [if_neg hn] at hx
        simp only [List.mem_cons] at hx
        rcases hx with h | h
        · omega
        · have := ih (pos + n) x h; omega
    · rw [if_neg hlt] at hx; simp at hx

/-- The raw `pos` trace is non-decreasing (each executed read adds `n > 0`). -/
theorem partRun_chain (endp : Nat) (ns : List Nat) : ∀ pos,
    List.Chain' (· ≤ ·) ((partRun endp pos ns).2) := by
  induction ns with
  | nil => intro pos; simp [partRun]
  | cons n ns ih =>
    intro pos
    unfold partRun
    by_cases hlt : pos < endp
    · rw [if_pos hlt]
      by_cases hn : n = 0
      · rw [if_pos hn]; simp
      · rw [if_neg hn]
        refine List.chain'_cons'.2 ⟨?_, ih (pos + n)⟩
        intro y hy
        exact partRun_mem_lb endp ns (pos + n) y (List.mem_of_mem_head? hy)
    · rw [if_neg hlt]; simp

/-- The sequence of `Progress` payloads a worker emits is monotone
non-decreasing (the true two thirds of the observer semantics: the payload
bound against the `Started` length fails, see
`progress_exceeds_started_len`). -/
theorem progress_events_chain (start endp : Nat) (ns : List Nat) :
    List.Chain' (· ≤ ·) (progress_events start endp ns) := by
  unfold progress_events
  rw [List.chain'_map]
  exact (partRun_chain endp ns start).imp (fun h => by omega)

/-- The total a successful worker reports: at least `endp - start` when the
body supplies that many bytes, and at most `endp - start + 8191` (the 8 KiB
reads can overshoot the loop bound `pos < endp`) — but not necessarily the
full inclusive range size `endp - start + 1`. -/
theorem bytes_done_bounds (start endp : Nat) (ns : List Nat)
    (hse : start ≤ endp) (hpos : ∀ n ∈ ns, 0 < n) (hsz : ∀ n ∈ ns, n ≤ 8192)
    (henough : endp - start ≤ ns.sum) :
    endp - start ≤ bytes_done start endp ns ∧
    bytes_done start endp ns ≤ endp - start + 8191 := by
  unfold bytes_done
  have h1 := partRun_final_lower endp ns start hpos (by omega)
  have h2 := partRun_final_upper endp ns start hsz
  rw [max_eq_right (by omega)] at h2
  omega

/-- Claim C2 (evaluation at the failing input). A worker assigned the inclusive
range `[0, 1]` (two bytes) whose body arrives as two 1-byte reads stops after
the first byte (`while pos < end` exits at `pos = 1`) and still reports `Done`:
the total reported is `1 = end - start`, not `end - start + 1 = 2` as the
claim states. -/
theorem download_part_bytes_at_failing_input :
    bytes_done 0 1 [1, 1] = 1 ∧ bytes_done 0 1 [1, 1] ≠ 1 - 0 + 1 := by
  constructor <;> decide

/-- Claim C8 (evaluation at the failing input). A worker assigned the inclusive
range `[0, 1]` announces `Started(idx, end - start) = Started(idx, 1)`; if the
two requested bytes arrive in a single read, the loop writes them and emits
`Progress(idx, 2)`: a progress payload strictly above the announced length,
refuting "each value is at most the length reported in on_download_start".
(Monotonicity and the once-per-idx guarantee do hold: `progress_events_chain`,
`ob_end_calls_nodup`.) -/
theorem progress_exceeds_started_len :
    progress_events 0 1 [2] = [2] ∧ started_len 0 1 = 1 ∧
    ¬ (∀ v ∈ progress_events 0 1 [2], v ≤ started_len 0 1) := by
  have e : started_len 0 1 = 1 := by
    unfold started_len
    rw [u64sub_eq 1 0 (by omega) (by unfold U64; norm_num)]
  have p : progress_events 0 1 [2] = [2] := by rfl
  refine ⟨p, e, fun hall => ?_⟩
  have h := hall 2 (by rw [p]; exact List.mem_singleton.2 rfl)
  rw [e] at h
  omega

/-! ## The controller event loop

`src/downloader.rs`, `download` (lines 210-243):

```rust
let mut cnt = num_threads;
let mut dlparts = vec![String::default(); num_threads as usize];
for msg in recv {
    match msg {
        DownloadStatus::Started(idx, len) => ob.on_download_start(idx, len),
        DownloadStatus::Progress(idx, pos) => ob.on_progress(idx, pos),
        DownloadStatus::Failed(idx, err) => {
            ob.on_download_end(idx);
            return Err(make_error(...));
        }
        DownloadStatus::Done(idx, fpath) => {
            dlparts[idx as usize] = fpath;
            ob.on_download_end(idx);
            cnt -= 1;
            if cnt == 0 { break; }
        }
    }
}
...
merge_parts(&output, &dlparts)?;
```

The channel is modelled as the list of events in arrival order.  The loop
result distinguishes the three exits: early return on `Failed`, break with
`cnt == 0` (followed by the merge), and the channel closing first (also
followed by the merge).  The second component collects the `idx` arguments of
the `on_download_end` observer calls, in order. -/
inductive DownloadStatus where
  | started (idx : Nat) (len : Nat)
  | progress (idx : Nat) (pos : Nat)
  | failed (idx : Nat) (reason : String)
  | done (idx : Nat) (fpath : String)
deriving DecidableEq

inductive LoopResult where
  | failedAt (idx : Nat) (reason : String)
  | completed (parts : List String)
  | exhausted (parts : List String) (remaining : Nat)
deriving DecidableEq

/-- The controller's event loop: consumes events until the first `Failed`,
until `cnt` reaches `0`, or until the channel is exhausted.  Returns the loop
outcome and the ordered list of `on_download_end` calls. -/
def eventLoop : Nat → List String → List DownloadStatus → LoopResult × List Nat
  | cnt, parts, [] => (.exhausted parts cnt, [])
  | cnt, parts, .started _ _ :: rest => eventLoop cnt parts rest
  | cnt, parts, .progress _ _ :: rest => eventLoop cnt parts rest
  | _, _, .failed i r :: _ => (.failedAt i r, [i])
  | cnt, parts, .done i p :: rest =>
    if cnt - 1 = 0 then (.completed (parts.set i p), [i])
    else
      let r := eventLoop (cnt - 1) (parts.set i p) rest
      (r.1, i :: r.2)

/-- The merge step `merge_parts` runs only when the loop falls through without an early
return (`download` lines 236-243). -/
def merge_performed : LoopResult → Bool
  | .failedAt _ _ => false
  | .completed _ => true
  | .exhausted _ _ => true

def DownloadStatus.isDone : DownloadStatus → Bool
  | .done _ _ => true
  | _ => false

def DownloadStatus.isFailed : DownloadStatus → Bool
  | .failed _ _ => true
  | _ => false

/-- The part index of a terminal (`Done` or `Failed`) event. -/
def terminalIdx : DownloadStatus → Option Nat
  | .failed i _ => some i
  | .done i _ => some i
  | _ => none

/-- Claim C5. If some worker reports `Failed` and fewer than `cnt` `Done` events
are on the channel (true in every run: each of the `N` workers sends exactly
one terminal event, so a `Failed` leaves at most `N - 1` `Done`s), the event
loop returns the `DownloadFailed` error of a `Failed` event actually on the
channel, and the merge step is not performed — hence nothing is written at
the output path, whose prior content is untouched. -/
theorem failed_event_aborts (events : List DownloadStatus) : ∀ (cnt : Nat)
    (parts : List String),
    (∃ e ∈ events, e.isFailed = true) →
    (events.filter (fun e => e.isDone)).length < cnt →
    ∃ i r, (eventLoop cnt parts events).1 = .failedAt i r ∧
      DownloadStatus.failed i r ∈ events ∧
      merge_performed (eventLoop cnt parts events).1 = false := by
  induction events with
  | nil =>
    rintro cnt parts ⟨e, he, _⟩ _
    simp at he
  | cons e rest ih =>
    rintro cnt parts ⟨f, hf, hff⟩ hdone
    match e with
    | .started i l =>
      have hf2 : f ∈ rest := by
        rcases List.mem_cons.1 hf with h | h
        · rw [h] at hff; simp [DownloadStatus.isFailed] at hff
        · exact h
      have hd2 : (rest.filter (fun e => e.isDone)).length < cnt := by
        simpa [DownloadStatus.isDone] using hdone
      obtain ⟨i2, r2, h1, h2, h3⟩ := ih cnt parts ⟨f, hf2, hff⟩ hd2
      exact ⟨i2, r2, h1, List.mem_cons_of_mem _ h2, h3⟩
    | .progress i p =>
      have hf2 : f ∈ rest := by
        rcases List.mem_cons.1 hf with h | h
        · rw [h] at hff; simp [DownloadStatus.isFailed] at hff
        · exact h
      have hd2 : (rest.filter (fun e => e.isDone)).length < cnt := by
        simpa [DownloadStatus.isDone] using hdone
      obtain ⟨i2, r2, h1, h2, h3⟩ := ih cnt parts ⟨f, hf2, hff⟩ hd2
      exact ⟨i2, r2, h1, List.mem_cons_of_mem _ h2, h3⟩
    | .failed i r =>
      exact ⟨i, r, rfl, List.mem_cons_self _ _, rfl⟩
    | .done i p =>
      have hd2 : (rest.filter (fun e => e.isDone)).length < cnt - 1 := by
        have : ((DownloadStatus.done i p :: rest).filter (fun e => e.isDone)).length
            = (rest.filter (fun e => e.isDone)).length + 1 := by
          simp [DownloadStatus.isDone]
        omega
      have hcnt : ¬ (cnt - 1 = 0) := by omega
      have hf2 : f ∈ rest := by
        rcases List.mem_cons.1 hf with h | h
        · rw [h] at hff; simp [DownloadStatus.isFailed] at hff
        · exact h
      obtain ⟨i2, r2, h1, h2, h3⟩ := ih (cnt - 1) (parts.set i p) ⟨f, hf2, hff⟩ hd2
      refine ⟨i2, r2, ?_, List.mem_cons_of_mem _ h2, ?_⟩
      · simp only [eventLoop, if_neg hcnt]
        exact h1
      · simp only [eventLoop, if_neg hcnt]
        exact h3

/-- Witness for `failed_event_aborts`: two workers, part 0 finishes, part 1
fails; the loop aborts with the part-1 error and no merge happens. -/
theorem failed_event_aborts_witness :
    ∃ i r, (eventLoop 2 ["", ""]
        [DownloadStatus.done 0 "a", DownloadStatus.failed 1 "boom"]).1 =
        LoopResult.failedAt i r ∧
      DownloadStatus.failed i r ∈
        [DownloadStatus.done 0 "a", DownloadStatus.failed 1 "boom"] ∧
      merge_performed (eventLoop 2 ["", ""]
        [DownloadStatus.done 0 "a", DownloadStatus.failed 1 "boom"]).1 = false :=
  failed_event_aborts
    [DownloadStatus.done 0 "a", DownloadStatus.failed 1 "boom"] 2 ["", ""]
    ⟨DownloadStatus.failed 1 "boom", by decide, by decide⟩ (by decide)

/-- The `on_download_end` call list is a sublist of the indices of the
terminal events in channel order. -/
theorem eventLoop_ends_sublist (events : List DownloadStatus) : ∀ (cnt : Nat)
    (parts : List String),
    (eventLoop cnt parts events).2.Sublist (events.filterMap terminalIdx) := by
  induction events with
  | nil => intro cnt parts; simp [eventLoop]
  | cons e rest ih =>
    intro cnt parts
    match e with
    | .started i l => simpa [eventLoop, terminalIdx] using ih cnt parts
    | .progress i p => simpa [eventLoop, terminalIdx] using ih cnt parts
    | .failed i r =>
      simp only [eventLoop, List.filterMap_cons, terminalIdx]
      exact (List.nil_sublist _).cons₂ i
    | .done i p =>
      by_cases hcnt : cnt - 1 = 0
      · simp only [eventLoop, if_pos hcnt, List.filterMap_cons, terminalIdx]
        exact (List.nil_sublist _).cons₂ i
      · simp only [eventLoop, if_neg hcnt, List.filterMap_cons, terminalIdx]
        exact (ih (cnt - 1) (parts.set i p)).cons₂ i

/-- If each worker contributes at most one terminal event (as in the source:
`download_part` sends exactly one of `Done`/`Failed`), `on_download_end` is
invoked at most once per part index. -/
theorem ob_end_calls_nodup (events : List DownloadStatus) (cnt : Nat)
    (parts : List String) (h : (events.filterMap terminalIdx).Nodup) :
    (eventLoop cnt parts events).2.Nodup :=
  (eventLoop_ends_sublist events cnt parts).nodup h

/-! ## Character-level string utilities

Rust `&str` values are modelled as `List Char`.  `split`, `trim`,
`to_lowercase` and friends are re-implemented below with the semantics of the
Rust standard library on ASCII input (the only divergence is exotic Unicode
whitespace/case, which none of the claims involve). -/

/-- Model of `str::split(c)`: splits at every occurrence of `c`; adjacent separators
and separators at either end produce empty segments, and the result is never
empty (`"".split(c)` is `[""]`). -/
def splitOnChar (c : Char) : List Char → List (List Char)
  | [] => [[]]
  | x :: xs =>
    let r := splitOnChar c xs
    if x = c then [] :: r
    else
      match r with
      | [] => [[x]]
      | p :: ps => (x :: p) :: ps

/-- Joining with the separator, the inverse of `splitOnChar`. -/
def joinSep (c : Char) : List (List Char) → List Char
  | [] => []
  | [p] => p
  | p :: q :: ps => p ++ c :: joinSep c (q :: ps)

theorem splitOnChar_ne_nil (c : Char) (s : List Char) : splitOnChar c s ≠ [] := by
  cases s with
  | nil => simp [splitOnChar]
  | cons x xs =>
    unfold splitOnChar
    by_cases h : x = c
    · simp [h]
    · rw [if_neg h]
      match splitOnChar c xs with
      | [] => simp
      | p :: ps => simp

theorem joinSep_cons (c : Char) (l : List Char) (r : List (List Char)) (h : r ≠ []) :
    joinSep c (l :: r) = l ++ c :: joinSep c r := by
  match r with
  | [] => exact absurd rfl h
  | q :: ps => rfl

/-- Splitting then joining recovers the original list. -/
theorem joinSep_splitOnChar (c : Char) (s : List Char) :
    joinSep c (splitOnChar c s) = s := by
  induction s with
  | nil => rfl
  | cons x xs ih =>
    unfold splitOnChar
    by_cases h : x = c
    · rw [if_pos h, joinSep_cons c [] _ (splitOnChar_ne_nil c xs), ih, h]
      rfl
    · rw [if_neg h]
      match hr : splitOnChar c xs with
      | [] => exact absurd hr (splitOnChar_ne_nil c xs)
      | p :: ps =>
        rw [hr] at ih
        match ps with
        | [] =>
          simp only [joinSep] at ih ⊢
          rw [ih]
        | q :: qs =>
          simp only [joinSep, List.cons_append] at ih ⊢
          rw [ih]

/-- Model of `char::to_lowercase` restricted to ASCII. -/
def asciiLower (c : Char) : Char :=
  if 'A' ≤ c ∧ c ≤ 'Z' then Char.ofNat (c.toNat + 32) else c

/-- Model of `str::trim_start`. -/
def trimLeftChars : List Char → List Char
  | [] => []
  | c :: cs => if c.isWhitespace then trimLeftChars cs else c :: cs

/-- Model of `str::trim_end`. -/
def trimEndChars (l : List Char) : List Char := (trimLeftChars l.reverse).reverse

/-- Model of `str::trim` (both ends). -/
def trimChars (l : List Char) : List Char := trimLeftChars (trimEndChars l)

/-! ## The URL parser (`src/urlinfo.rs`)

```rust
pub fn parse(url: &str) -> Result<UrlInfo, PError> {
    let parts: Vec<&str> = url.split("/").collect();
    if parts.len() < 4 { return Err(make_error("Invalid URL")); }
    let scheme = parse_and_validate_scheme(&parts[0])?;
    let (host, port) = parse_host_and_port(parts[2], scheme)?;
    let query_idx = parts[0].len() + parts[1].len() + parts[2].len() + 2;
    Ok(UrlInfo { scheme: ..., domain: ..., port,
                 path: url[query_idx..].to_string(),
                 fname: parts[parts.len() - 1].to_string() })
}
```
-/

structure UrlInfo where
  scheme : List Char
  domain : List Char
  port : Nat
  path : List Char
  fname : List Char
deriving DecidableEq

/-- The accumulated decimal value of a digit list. -/
def digitsVal (ds : List Char) : Nat :=
  ds.foldl (fun a c => a * 10 + (c.toNat - 48)) 0

/-- Model of `str::parse::<u16>()`: optional leading `+`, then one or more ASCII
digits, value below `2^16` (overflow is a parse error). -/
def parse_u16 (s : List Char) : Option Nat :=
  let t := match s with
    | '+' :: rest => rest
    | _ => s
  if t.isEmpty then none
  else if t.all (fun c => c.isDigit) then
    let v := digitsVal t
    if v < 65536 then some v else none
  else none

/-- Model of `parse_host_and_port` (`src/urlinfo.rs` lines 41-58): an authority with a
`:` must split into exactly two pieces and carries an explicit port; otherwise
the port defaults to 80/443 by scheme (any other scheme is an error). -/
def parse_host_and_port (addr : List Char) (scheme : List Char) :
    Option (List Char × Nat) :=
  if addr.contains ':' then
    match splitOnChar ':' addr with
    | [h, p] => (parse_u16 p).map (fun v => (h, v))
    | _ => none
  else
    if scheme = "http".toList then some (addr, 80)
    else if scheme = "https".toList then some (addr, 443)
    else none

/-- Model of `parse_and_validate_scheme` (`src/urlinfo.rs` lines 60-66): the first
segment must be the literal `http:` or `https:`; the trailing colon is
dropped. -/
def parse_and_validate_scheme (s : List Char) : Option (List Char) :=
  if s = "http:".toList ∨ s = "https:".toList then some s.dropLast else none

/-- Model of `UrlInfo::parse` of `src/urlinfo.rs` (the variant the download controller
uses). -/
def UrlInfo.parse (url : List Char) : Option UrlInfo :=
  match splitOnChar '/' url with
  | p0 :: p1 :: p2 :: p3 :: rest =>
    match parse_and_validate_scheme p0 with
    | none => none
    | some scheme =>
      match parse_host_and_port p2 scheme with
      | none => none
      | some (host, port) =>
        some { scheme := scheme
               domain := host
               port := port
               path := url.drop (p0.length + p1.length + p2.length + 2)
               fname := (p3 :: rest).getLast (by simp) }
  | _ => none

/-- If the URL splits into at least four segments, the `query_idx` suffix the
parser stores as `path` is exactly `'/'` followed by the re-joined remaining
segments. -/
theorem drop_query_idx (url p0 p1 p2 p3 : List Char) (rest : List (List Char))
    (hsplit : splitOnChar '/' url = p0 :: p1 :: p2 :: p3 :: rest) :
    url.drop (p0.length + p1.length + p2.length + 2) =
      '/' :: joinSep '/' (p3 :: rest) := by
  have hurl : url = (p0 ++ '/' :: (p1 ++ '/' :: p2)) ++
      ('/' :: joinSep '/' (p3 :: rest)) := by
    conv_lhs => rw [← joinSep_splitOnChar '/' url, hsplit]
    rw [joinSep_cons _ _ _ (by simp), joinSep_cons _ _ _ (by simp),
      joinSep_cons _ _ _ (by simp)]
    simp [List.append_assoc]
  have hlen : (p0 ++ '/' :: (p1 ++ '/' :: p2)).length =
      p0.length + p1.length + p2.length + 2 := by
    simp [List.length_append]
    omega
  rw [hurl, ← hlen, List.drop_left]

/-- Claim C7 (amended). For every URL accepted by `UrlInfo::parse`
(`src/urlinfo.rs`): `path` begins with `'/'`; `scheme` is `http` or `https`;
the port is the explicitly given authority port when the authority contains
`':'` and otherwise the scheme default (80/443); and `fname` is the last
`/`-separated segment of the URL — which, contrary to the claim, may be
empty (see `urlinfo_parse_empty_fname`). -/
theorem urlinfo_parse_invariants (url : List Char) (ui : UrlInfo)
    (h : UrlInfo.parse url = some ui) :
    (∃ t, ui.path = '/' :: t) ∧
    (ui.scheme = "http".toList ∨ ui.scheme = "https".toList) ∧
    (∃ p0 p1 p2 p3 rest, splitOnChar '/' url = p0 :: p1 :: p2 :: p3 :: rest ∧
      ui.fname = (p3 :: rest).getLast (by simp) ∧
      (p2.contains ':' = true →
        ∃ hst prt, splitOnChar ':' p2 = [hst, prt] ∧
          parse_u16 prt = some ui.port ∧ ui.domain = hst) ∧
      (¬ p2.contains ':' = true →
        ui.domain = p2 ∧
        ((ui.scheme = "http".toList ∧ ui.port = 80) ∨
         (ui.scheme = "https".toList ∧ ui.port = 443)))) := by
  unfold UrlInfo.parse at h
  split at h
  case _ p0 p1 p2 p3 rest hsplit =>
    split at h
    case _ => simp at h
    case _ scheme hsch =>
      split at h
      case _ => simp at h
      case _ host port hhp =>
        have hui := (Option.some.inj h).symm
        unfold parse_and_validate_scheme at hsch
        split at hsch
        case _ hor =>
          have hscheme : scheme = p0.dropLast := (Option.some.inj hsch).symm
          have hs2 : scheme = "http".toList ∨ scheme = "https".toList := by
            rcases hor with h1 | h1 <;> rw [hscheme, h1]
            · left; rfl
            · right; rfl
          have hsf : ui.scheme = scheme := by rw [hui]
          have hdf : ui.domain = host := by rw [hui]
          have hpf : ui.port = port := by rw [hui]
          have hpathf : ui.path = url.drop (p0.length + p1.length + p2.length + 2) := by
            rw [hui]
          have hfnf : ui.fname = (p3 :: rest).getLast (by simp) := by rw [hui]
          refine ⟨⟨joinSep '/' (p3 :: rest), by
              rw [hpathf, drop_query_idx url p0 p1 p2 p3 rest hsplit]⟩,
            by rw [hsf]; exact hs2,
            p0, p1, p2, p3, rest, hsplit, hfnf, ?_, ?_⟩
          · intro hcolon
            unfold parse_host_and_port at hhp
            rw [if_pos hcolon] at hhp
            split at hhp
            case _ hst prt hsp =>
              rcases Option.map_eq_some'.1 hhp with ⟨v, hv, hpair⟩
              have h1 : hst = host := congrArg Prod.fst hpair
              have h2 : v = port := congrArg Prod.snd hpair
              exact ⟨hst, prt, hsp, by rw [hpf, ← h2]; exact hv, by rw [hdf, h1]⟩
            case _ => simp at hhp
          · intro hcolon
            unfold parse_host_and_port at hhp
            rw [if_neg hcolon] at hhp
            by_cases hhttp : scheme = "http".toList
            · rw [if_pos hhttp] at hhp
              have hp2 := Option.some.inj hhp
              have h1 : p2 = host := congrArg Prod.fst hp2
              have h2 : (80 : Nat) = port := congrArg Prod.snd hp2
              exact ⟨by rw [hdf, h1], Or.inl ⟨by rw [hsf]; exact hhttp,
                by rw [hpf, ← h2]⟩⟩
            · rw [if_neg hhttp] at hhp
              by_cases hhttps : scheme = "https".toList
              · rw [if_pos hhttps] at hhp
                have hp2 := Option.some.inj hhp
                have h1 : p2 = host := congrArg Prod.fst hp2
                have h2 : (443 : Nat) = port := congrArg Prod.snd hp2
                exact ⟨by rw [hdf, h1], Or.inr ⟨by rw [hsf]; exact hhttps,
                  by rw [hpf, ← h2]⟩⟩
              · rw [if_neg hhttps] at hhp
                simp at hhp
        case _ =>
          simp at hsch
  case _ hne =>
    simp at h

/-- Claim C7 counterexample. `UrlInfo::parse` accepts `http://h/` and returns an
empty `fname` (the last `/`-separated segment of the URL is empty), refuting
the claim's "`fname` is non-empty". -/
theorem urlinfo_parse_empty_fname :
    ∃ ui, UrlInfo.parse ("http://h/".toList) = some ui ∧ ui.fname = [] := by
  refine ⟨_, rfl, rfl⟩

/-- Witness for `urlinfo_parse_invariants` at `http://a/b`. -/
theorem urlinfo_parse_invariants_witness :
    ∃ ui, UrlInfo.parse ("http://a/b".toList) = some ui ∧
      (∃ t, ui.path = '/' :: t) ∧
      (ui.scheme = "http".toList ∨ ui.scheme = "https".toList) := by
  have h : UrlInfo.parse ("http://a/b".toList) =
      some { scheme := "http".toList, domain := "a".toList, port := 80,
             path := "/b".toList, fname := "b".toList } := by rfl
  obtain ⟨h1, h2, _⟩ := urlinfo_parse_invariants _ _ h
  exact ⟨_, h, h1, h2⟩

/-! ## The HTTP client and redirect handling (`src/httpx.rs`)

`httpx.rs` carries its own copy of `UrlInfo::parse` (lines 36-49), used by
`HttpClientBuilder::from_url` on the redirect path.  Unlike `urlinfo.rs` it
has no segment-count check and no scheme validation (an explicit `host:port`
authority passes for any scheme); indexing `parts[2]` of a too-short split or
slicing an empty `parts[0]` panics, modelled as `none`. -/
def httpxUrlParse (url : List Char) : Option UrlInfo :=
  match splitOnChar '/' url with
  | p0 :: p1 :: p2 :: rest =>
    if p0.isEmpty then none
    else
      match parse_host_and_port p2 p0.dropLast with
      | none => none
      | some (host, port) =>
        some { scheme := p0.dropLast
               domain := host
               port := port
               path := url.drop (p0.length + p1.length + p2.length + 2)
               fname := ((p0 :: p1 :: p2 :: rest).getLast (by simp)) }
  | _ => none

/-- Model of `UrlInfo::is_tls` (`src/httpx.rs` lines 55-57). -/
def UrlInfo.is_tls (ui : UrlInfo) : Bool := ui.scheme = "https".toList

/-- Model of `UrlInfo::host_addr` (`src/httpx.rs` lines 51-53): `"domain:port"`. -/
def UrlInfo.host_addr (ui : UrlInfo) : List Char :=
  ui.domain ++ ':' :: (Nat.repr ui.port).data

/-- Model of `RedirectPolicy` (`src/httpx.rs` lines 97-100).  `noRedirect` is the
source's `RedirectPolicy::None`. -/
inductive RedirectPolicy where
  | follow (maxHops : Nat)
  | noRedirect
deriving DecidableEq

/-- Model of `HttpConfig` (`src/httpx.rs` lines 102-106). -/
structure HttpConfig where
  redirect_policy : RedirectPolicy
  timeout_ms : Nat
deriving DecidableEq

def DEFAULT_TIMEOUT_MS : Nat := 5 * 1000

def DEFAULT_REDIRECT_POLICY : RedirectPolicy := .follow 10

/-- Model of `HttpClientBuilder` (`src/httpx.rs` lines 278-283). -/
structure HttpClientBuilder where
  host_addr : List Char
  tls : Bool
  domain : List Char
  cfg : HttpConfig
deriving DecidableEq

/-- Model of `HttpClientBuilder::new` (`src/httpx.rs` lines 287-297). -/
def HttpClientBuilder.new : HttpClientBuilder :=
  { host_addr := []
    tls := false
    domain := []
    cfg := { redirect_policy := DEFAULT_REDIRECT_POLICY
             timeout_ms := DEFAULT_TIMEOUT_MS } }

/-- Model of `HttpClientBuilder::from_url_info` (`src/httpx.rs` lines 303-311): copies
the address data and leaves `cfg` untouched. -/
def HttpClientBuilder.from_url_info (b : HttpClientBuilder) (ui : UrlInfo) :
    HttpClientBuilder :=
  { b with host_addr := ui.host_addr, tls := ui.is_tls, domain := ui.domain }

/-- Model of `HttpClientBuilder::from_url` (`src/httpx.rs` lines 299-301). -/
def HttpClientBuilder.from_url (b : HttpClientBuilder) (url : List Char) :
    Option HttpClientBuilder :=
  (httpxUrlParse url).map b.from_url_info

/-- The only request methods `send_request` accepts (`src/httpx.rs`
lines 198-201). -/
inductive Method where
  | GET
  | HEAD
deriving DecidableEq

/-- The location-key test `key.to_lowercase(); key.trim() == "location"` — the scan in
`handle_redirect` (`src/httpx.rs` lines 255-257). -/
def isLocationKey (k : List Char) : Bool :=
  trimChars (k.map asciiLower) = "location".toList

/-- First header whose key matches `location` case-insensitively, in stream
order. -/
def findLocation : List (List Char × List Char) → Option (List Char)
  | [] => none
  | (k, v) :: rest => if isLocationKey k then some v else findLocation rest

/-- Observable outcome of `make_response` (`src/httpx.rs` lines 220-248).
`followed` records the redirect actually taken: the re-issued method, the
builder of the freshly constructed client (a second connection), and the
request-target string passed to `get`/`head`. -/
inductive RespOutcome where
  | success (headers : List (List Char × List Char))
  | followed (method : Method) (builder : HttpClientBuilder) (target : List Char)
  | error (msg : String)
deriving DecidableEq

/-- Model of `handle_redirect` (`src/httpx.rs` lines 250-275):

```rust
for (key, val) in HeaderIterator::from(&mut br) {
    let key = key.to_lowercase();
    if key.trim() == "location" {
        let client = HttpClientBuilder::new().from_url(&val)?.build()?;
        match *req.method() {
            Method::GET => return client.get(&val),
            Method::HEAD => return client.head(&val),
            _ => return Err(make_error("unsupported method")),
        }
    }
}
Err(make_error(format!("server return {} but no location header ...")))
```

Note the builder is `HttpClientBuilder::new()` — the default config, not the
config of the client that received the 3xx — and the request-target passed on
is the full `Location` value `val`, not its path. -/
def handle_redirect (method : Method) (headers : List (List Char × List Char)) :
    RespOutcome :=
  match findLocation headers with
  | some loc =>
    match HttpClientBuilder.new.from_url loc with
    | none => .error "invalid redirect url"
    | some b =>
      match method with
      | .GET => .followed .GET b loc
      | .HEAD => .followed .HEAD b loc
  | none => .error "server returned a redirect but no location header was found"

/-- Model of `make_response` (`src/httpx.rs` lines 220-248), given the parsed status
code and the header stream.  It is an associated function without access to
the client's `HttpConfig`: the status dispatch never consults
`redirect_policy`. -/
def make_response (method : Method) (status : Nat)
    (headers : List (List Char × List Char)) : RespOutcome :=
  if status / 100 ≥ 4 then .error "server response error"
  else if status / 100 = 3 then handle_redirect method headers
  else .success headers

/-- One request of a configured client, as far as response handling is
observable: `send_request` (`src/httpx.rs` lines 198-218) writes the request
and delegates to `make_response`.  The client's `HttpConfig` is deliberately
an unused parameter: `HttpClient` (lines 90-93) stores only `host_addr` and
the stream — `connect` consumed `timeout_ms` for the socket and dropped the
config, so no request/response step can depend on `redirect_policy`. -/
def client_request (_cfg : HttpConfig) (method : Method) (status : Nat)
    (headers : List (List Char × List Char)) : RespOutcome :=
  make_response method status headers

/-- Outcome of chasing an unbounded redirect chain with bounded fuel. -/
inductive ChainResult where
  | stillRunning
  | succeeded
  | failedWith (msg : String)
deriving DecidableEq

/-- A client with config `cfg` issues `m` against a server that answers every
request `302` with a `Location: loc` header; each `followed` outcome re-enters
with the config of the freshly built client.  `fuel` bounds the number of
hops we observe. -/
def redirect_chain (loc : List Char) (m : Method) : Nat → HttpConfig → ChainResult
  | 0, _ => .stillRunning
  | fuel + 1, _cfg =>
    match make_response m 302 [("Location".toList, loc)] with
    | .success _ => .succeeded
    | .error e => .failedWith e
    | .followed _ b _ => redirect_chain loc m fuel b.cfg

/-- The builder step `from_url` never touches the builder's config. -/
theorem from_url_cfg (b0 b : HttpClientBuilder) (url : List Char)
    (h : b0.from_url url = some b) : b.cfg = b0.cfg := by
  unfold HttpClientBuilder.from_url at h
  rcases Option.map_eq_some'.1 h with ⟨ui, _, hb⟩
  rw [← hb]
  rfl

/-- On a 3xx response whose headers hold a `Location` valued `loc` that
parses, `make_response` follows: it re-issues the same method, through a
freshly `new()`-built client, at the full `loc` string. -/
theorem make_response_302_followed (m : Method) (loc : List Char)
    (b : HttpClientBuilder) (hb : HttpClientBuilder.new.from_url loc = some b) :
    make_response m 302 [("Location".toList, loc)] = .followed m b loc := by
  unfold make_response
  rw [if_neg (by norm_num), if_pos (by norm_num)]
  unfold handle_redirect findLocation
  rw [if_pos (by decide : isLocationKey ("Location".toList) = true)]
  show (match HttpClientBuilder.new.from_url loc with
    | none => RespOutcome.error "invalid redirect url"
    | some b2 =>
      match m with
      | Method.GET => RespOutcome.followed Method.GET b2 loc
      | Method.HEAD => RespOutcome.followed Method.HEAD b2 loc) =
    RespOutcome.followed m b loc
  rw [hb]
  cases m <;> rfl

theorem findLocation_append (pre rest : List (List Char × List Char))
    (h : findLocation pre = none) :
    findLocation (pre ++ rest) = findLocation rest := by
  induction pre with
  | nil => rfl
  | cons kv tail ih =>
    obtain ⟨k0, v0⟩ := kv
    simp only [findLocation] at h
    by_cases hk : isLocationKey k0
    · rw [if_pos hk] at h
      simp at h
    · rw [if_neg hk] at h
      rw [List.cons_append]
      simp only [findLocation]
      rw [if_neg hk]
      exact ih h

/-- Claim C3 (code behaviour at the failing input). Against a server that
answers every request `302` with `Location: http://h/x`, a client under ANY
configuration — `Follow(n)` for every budget `n`, and even
`RedirectPolicy::None` — keeps following forever: after any number `fuel` of
hops the chain is still running and no error has been produced.
`handle_redirect` rebuilds each hop's client via `HttpClientBuilder::new()`
(a fresh `Follow(10)` config), never decrements a budget, and no
`TooManyRedirects` error exists anywhere in `src/httpx.rs` — contradicting
the code's own doc comment `Follow(u8) // maximum number of redirects`
(line 98). -/
theorem redirect_chain_never_stops (fuel : Nat) (cfg : HttpConfig) (m : Method) :
    redirect_chain ("http://h/x".toList) m fuel cfg = ChainResult.stillRunning := by
  induction fuel generalizing cfg with
  | zero => rfl
  | succ fuel ih =>
    obtain ⟨b, hb⟩ :
        ∃ b, HttpClientBuilder.new.from_url ("http://h/x".toList) = some b :=
      ⟨_, rfl⟩
    show (match make_response m 302 [("Location".toList, "http://h/x".toList)] with
      | .success _ => ChainResult.succeeded
      | .error e => ChainResult.failedWith e
      | .followed _ b2 _ => redirect_chain ("http://h/x".toList) m fuel b2.cfg) =
      ChainResult.stillRunning
    rw [make_response_302_followed m _ b hb]
    exact ih b.cfg

/-- Claim C4 (code behaviour at the failing input). A client configured with
`RedirectPolicy::None` that receives `302` with `Location: http://h/x` does
NOT fail with `RedirectRefused`: the policy is never consulted, the redirect
is followed, and a second connection is opened through a freshly built client
whose config is the default `Follow(10)` / 5000 ms.  This contradicts the
code's own doc comment `None // do not follow redirects` (`src/httpx.rs`
line 99) and the `--no-redirect` CLI option that sets this policy. -/
theorem none_policy_not_enforced :
    ∃ b, client_request ⟨RedirectPolicy.noRedirect, 5000⟩
        Method.GET 302 [("Location".toList, "http://h/x".toList)] =
        RespOutcome.followed Method.GET b ("http://h/x".toList) ∧
      b.cfg = ⟨RedirectPolicy.follow 10, 5000⟩ := by
  obtain ⟨b, hb⟩ :
      ∃ b, HttpClientBuilder.new.from_url ("http://h/x".toList) = some b :=
    ⟨_, rfl⟩
  refine ⟨b, make_response_302_followed Method.GET _ b hb, ?_⟩
  rw [from_url_cfg _ _ _ hb]
  rfl

/-- Claim C10. Whenever a 3xx response carrying a (case-insensitively matched)
`Location: v` header is followed, the re-issued request is made by a freshly
built client whose configuration is the DEFAULT one — `Follow(10)`,
`5000 ms` — regardless of the original client's configuration (which
`make_response` cannot even see); the method is preserved; and the
request-target of the re-issued request is the full `Location` string `v`
itself, not the path component of `v`. -/
theorem redirect_fresh_default_client (cfg : HttpConfig) (m : Method)
    (status : Nat) (pre post : List (List Char × List Char)) (k v : List Char)
    (b : HttpClientBuilder)
    (h3 : status / 100 = 3)
    (hpre : findLocation pre = none)
    (hk : isLocationKey k = true)
    (hb : HttpClientBuilder.new.from_url v = some b) :
    client_request cfg m status (pre ++ (k, v) :: post) =
      RespOutcome.followed m b v ∧
    b.cfg = ⟨RedirectPolicy.follow 10, 5 * 1000⟩ := by
  constructor
  · show make_response m status (pre ++ (k, v) :: post) = RespOutcome.followed m b v
    unfold make_response
    rw [if_neg (by omega), if_pos h3]
    unfold handle_redirect
    rw [findLocation_append pre _ hpre]
    simp only [findLocation]
    rw [if_pos hk]
    show (match HttpClientBuilder.new.from_url v with
      | none => RespOutcome.error "invalid redirect url"
      | some b2 =>
        match m with
        | Method.GET => RespOutcome.followed Method.GET b2 v
        | Method.HEAD => RespOutcome.followed Method.HEAD b2 v) =
      RespOutcome.followed m b v
    rw [hb]
    cases m <;> rfl
  · rw [from_url_cfg _ _ _ hb]
    rfl

/-- Witness for `redirect_fresh_default_client`: a `None`-policy,
60-second-timeout client is redirected by a `301` whose second header is
`LOCATION: http://m/f`; the hop uses a fresh default `Follow(10)`/5000 ms
client aimed at the full URL. -/
theorem redirect_fresh_default_client_witness :
    ∃ b, client_request ⟨RedirectPolicy.noRedirect, 60000⟩
        Method.HEAD 301
        ([("Server".toList, "x".toList)] ++
          ("LOCATION".toList, "http://m/f".toList) :: []) =
        RespOutcome.followed Method.HEAD b ("http://m/f".toList) ∧
      b.cfg = ⟨RedirectPolicy.follow 10, 5 * 1000⟩ := by
  obtain ⟨b, hb⟩ :
      ∃ b, HttpClientBuilder.new.from_url ("http://m/f".toList) = some b :=
    ⟨_, rfl⟩
  exact ⟨b, redirect_fresh_default_client _ Method.HEAD 301 _ _ _ _ b
    (by norm_num) (by decide) (by decide) hb⟩

/-! ## Response header parsing (`src/httpx.rs`)

```rust
fn parse_header(header: &str) -> Option<(&str, &str)> {
    if let Some(pos) = header.find(':') {
        Some((&header[..pos].trim(), &header[pos + 1..].trim()))
    } else {
        None
    }
}
```

`HeaderIterator::next` (lines 363-380) reads one line per call (`n` counts the
bytes read, terminator included), stops on `n ≤ 2` (the bare `\r\n` line),
and — key detail — also returns `None`, ending the whole iteration, when
`parse_header` fails on a colon-free line. -/

/-- Split a list at the first occurrence of `c` (`str::find` + slicing). -/
def splitFirst (c : Char) : List Char → Option (List Char × List Char)
  | [] => none
  | x :: xs =>
    if x = c then some ([], xs)
    else (splitFirst c xs).map (fun p => (x :: p.1, p.2))

/-- Model of `parse_header`: split at the first `:`, trim both sides; `none` when the
line has no `:`. -/
def parse_header (l : List Char) : Option (List Char × List Char) :=
  match splitFirst ':' l with
  | some (before, after) => some (trimChars before, trimChars after)
  | none => none

/-- The header pairs the response exposes, given the raw header lines
(terminators included) in stream order: one line per `next` call, stopping at
a line of length `≤ 2` or at the first line `parse_header` rejects. -/
def headersOf : List (List Char) → List (List Char × List Char)
  | [] => []
  | line :: rest =>
    if 2 < line.length then
      match parse_header (trimEndChars line) with
      | some kv => kv :: headersOf rest
      | none => []
    else []

theorem splitFirst_at_first (k v : List Char) (h : ':' ∉ k) :
    splitFirst ':' (k ++ ':' :: v) = some (k, v) := by
  induction k with
  | nil => simp [splitFirst]
  | cons x xs ih =>
    have hx : ¬ (x = ':') := by
      intro he
      exact h (he ▸ List.mem_cons_self x xs)
    have hxs : ':' ∉ xs := fun hm => h (List.mem_cons_of_mem x hm)
    simp only [List.cons_append, splitFirst, if_neg hx]
    show Option.map (fun p => (x :: p.1, p.2)) (splitFirst ':' (xs ++ ':' :: v)) =
      some (x :: xs, v)
    rw [ih hxs]
    rfl

theorem splitFirst_none (l : List Char) (h : ':' ∉ l) :
    splitFirst ':' l = none := by
  induction l with
  | nil => rfl
  | cons x xs ih =>
    have hx : ¬ (x = ':') := by
      intro he
      exact h (he ▸ List.mem_cons_self x xs)
    have hxs : ':' ∉ xs := fun hm => h (List.mem_cons_of_mem x hm)
    simp only [splitFirst, if_neg hx]
    rw [ih hxs]
    rfl

theorem trimLeftChars_subset (l : List Char) (x : Char)
    (h : x ∈ trimLeftChars l) : x ∈ l := by
  induction l with
  | nil => simp [trimLeftChars] at h
  | cons c cs ih =>
    unfold trimLeftChars at h
    by_cases hc : c.isWhitespace
    · rw [if_pos hc] at h
      exact List.mem_cons_of_mem c (ih h)
    · rw [if_neg hc] at h
      exact h

theorem trimEndChars_subset (l : List Char) (x : Char)
    (h : x ∈ trimEndChars l) : x ∈ l := by
  unfold trimEndChars at h
  have := trimLeftChars_subset l.reverse x (List.mem_reverse.1 h)
  exact List.mem_reverse.1 (by simpa using this)

/-- Claim C9 (amended). Header lines with a `:` are split at the FIRST `:` with
both sides trimmed (a value may itself contain `:`), and a colon-free header
line does not fail the response — but it is not skipped either: it TERMINATES
header parsing, so every header line parsed before it survives and everything
after it is dropped (see `header_no_colon_not_skipped`). -/
theorem header_parse_amended :
    (∀ k v : List Char, ':' ∉ k →
      parse_header (k ++ ':' :: v) = some (trimChars k, trimChars v)) ∧
    (∀ (good : List (List Char)) (bad : List Char) (rest : List (List Char)),
      (∀ l ∈ good, 2 < l.length ∧ (parse_header (trimEndChars l)).isSome = true) →
      2 < bad.length → ':' ∉ bad →
      headersOf (good ++ bad :: rest) = headersOf good) := by
  constructor
  · intro k v h
    unfold parse_header
    rw [splitFirst_at_first k v h]
  · intro good bad rest hgood hlen hbad
    induction good with
    | nil =>
      have hnone : parse_header (trimEndChars bad) = none := by
        unfold parse_header
        rw [splitFirst_none _ (fun hm => hbad (trimEndChars_subset bad ':' hm))]
      simp only [List.nil_append, headersOf, if_pos hlen, hnone]
    | cons l tail ih =>
      obtain ⟨hl1, hl2⟩ := hgood l (List.mem_cons_self l tail)
      obtain ⟨kv, hkv⟩ := Option.isSome_iff_exists.1 hl2
      have ih2 := ih (fun m hm => hgood m (List.mem_cons_of_mem l hm))
      simp only [List.cons_append, headersOf, if_pos hl1, hkv]
      exact congrArg (fun z => kv :: z) ih2

/-- Claim C9 counterexample. The claim says a colon-free line is skipped, i.e.
removing it would leave the parsed headers unchanged.  It is not: after
`junk` the iterator stops, dropping `B: 2`, whereas without the junk line
`B: 2` is parsed. -/
theorem header_no_colon_not_skipped :
    headersOf ["junk\r\n".toList, "B: 2\r\n".toList, "\r\n".toList] ≠
      headersOf ["B: 2\r\n".toList, "\r\n".toList] := by decide

/-- Witness for `header_parse_amended`: a first-colon split with trimming,
and a colon-free line ending the iteration while earlier headers survive. -/
theorem header_parse_amended_witness :
    parse_header (" Content-Type ".toList ++ ':' :: " text/html ".toList) =
      some ("Content-Type".toList, "text/html".toList) ∧
    headersOf (["A: 1\r\n".toList] ++ "junk\r\n".toList :: ["B: 2\r\n".toList]) =
      headersOf ["A: 1\r\n".toList] := by
  constructor
  · rw [header_parse_amended.1 " Content-Type ".toList " text/html ".toList
      (by decide)]
    decide
  · exact header_parse_amended.2 ["A: 1\r\n".toList] "junk\r\n".toList
      ["B: 2\r\n".toList] (by decide) (by decide) (by decide)

/-! ## Address resolution (`src/httpx.rs`, `resolve_addr`, lines 60-73)

```rust
let mut sock_addrs = addr.to_socket_addrs()?;
if sock_addrs.len() == 0 { return Err(make_error("invalid host address")); }
let sock_addr = sock_addrs.next().unwrap();
let sock_addr = sock_addrs
    .filter(|ip| ip.is_ipv4())
    .next()
    .unwrap_or_else(|| sock_addr); // try to use ipv4 address if available
```

`next()` consumes the FIRST address before the IPv4 filter runs, so the
filter only ever sees the tail of the list. -/
inductive IpAddr where
  | v4 (a : Nat)
  | v6 (a : Nat)
deriving DecidableEq

def IpAddr.is_ipv4 : IpAddr → Bool
  | .v4 _ => true
  | .v6 _ => false

/-- Model of `resolve_addr` on the resolved address list: error when empty; otherwise
the first IPv4 of the TAIL if any, else the first address. -/
def resolve_addr : List IpAddr → Option IpAddr
  | [] => none
  | a :: rest => some (((rest.filter (fun x => x.is_ipv4)).head?).getD a)

/-- Claim C6 (amended). On a non-empty resolution list `a :: rest` the resolver
returns some member of the list, and an IPv4 one whenever any IPv4 is present;
when the first address is not IPv4 the result is exactly the first IPv4 of
the whole list (or the first address when there is none).  But because the
first address is consumed before the IPv4 filter runs, when the FIRST address
is itself IPv4 and the tail holds another, the tail's IPv4 wins — the claim's
"first IPv4 in the list" fails (`resolve_addr_not_first_ipv4`). -/
theorem resolve_addr_selection (a : IpAddr) (rest : List IpAddr) :
    ∃ r, resolve_addr (a :: rest) = some r ∧
      r ∈ a :: rest ∧
      ((∃ x ∈ a :: rest, x.is_ipv4 = true) → r.is_ipv4 = true) ∧
      (a.is_ipv4 = false →
        ((a :: rest).filter (fun x => x.is_ipv4)).head? = some r ∨
        (((a :: rest).filter (fun x => x.is_ipv4)) = [] ∧ r = a)) := by
  match hh : (rest.filter (fun x => x.is_ipv4)).head? with
  | some b =>
    have hbmem : b ∈ rest.filter (fun x => x.is_ipv4) := List.mem_of_mem_head? hh
    have hb4 : b.is_ipv4 = true := List.of_mem_filter hbmem
    refine ⟨b, ?_, ?_, fun _ => hb4, ?_⟩
    · show some ((rest.filter (fun x => x.is_ipv4)).head?.getD a) = some b
      rw [hh]
      rfl
    · exact List.mem_cons_of_mem a (List.mem_of_mem_filter hbmem)
    · intro ha4
      left
      rw [List.filter_cons_of_neg (by simp [ha4])]
      exact hh
  | none =>
    have hempty : rest.filter (fun x => x.is_ipv4) = [] :=
      List.head?_eq_none_iff.1 hh
    refine ⟨a, ?_, List.mem_cons_self a rest, ?_, ?_⟩
    · show some ((rest.filter (fun x => x.is_ipv4)).head?.getD a) = some a
      rw [hh]
      rfl
    · rintro ⟨x, hx, hx4⟩
      rcases List.mem_cons.1 hx with h | h
      · rw [← h]; exact hx4
      · exact absurd (List.mem_filter.2 ⟨h, hx4⟩) (by simp [hempty])
    · intro ha4
      right
      rw [List.filter_cons_of_neg (by simp [ha4])]
      exact ⟨hempty, rfl⟩

/-- Claim C6 counterexample. When the list is `[v4 0, v4 1]` the first IPv4 of
the list is `v4 0`, but `resolve_addr` — filtering only the tail — returns
`v4 1`. -/
theorem resolve_addr_not_first_ipv4 :
    resolve_addr [IpAddr.v4 0, IpAddr.v4 1] ≠
      ([IpAddr.v4 0, IpAddr.v4 1].filter (fun x => x.is_ipv4)).head? := by
  decide

/-- Witness for `resolve_addr_selection`: `[v6 0, v4 1]` resolves to an IPv4
address. -/
theorem resolve_addr_selection_witness :
    ∃ r, resolve_addr [IpAddr.v6 0, IpAddr.v4 1] = some r ∧
      r.is_ipv4 = true := by
  obtain ⟨r, h1, _, h3, _⟩ := resolve_addr_selection (IpAddr.v6 0) [IpAddr.v4 1]
  exact ⟨r, h1, h3 ⟨IpAddr.v4 1, by simp, rfl⟩⟩

end Fget
